import Mathlib

/-!
Shallow embedding of the azimuth virtual-pointer program (src/main.rs).

`f32` values are modelled as rationals (`ℚ`) with exact arithmetic; float
literals of the source become the corresponding rational literals.
Handler / receiver / key-event handles are opaque in the source and are
modelled as `Nat` identifiers.  Shell side effects (`set_position`,
`set_rotation`, `set_datamap`, spawning the detached resolution tasks) are
recorded explicitly as an effect list.
-/

namespace Azimuth

/-- A 2-vector of rationals, modelling `Vector2<f32>` / `[f32; 2]`. -/
structure Vec2 where
  x : ℚ
  y : ℚ
deriving DecidableEq

/-- `struct Datamap { select: f32, grab: f32, scroll: Vector2<f32> }`. -/
structure Datamap where
  select : ℚ
  grab : ℚ
  scroll : Vec2
deriving DecidableEq

/-- `enum MouseEvent` of src/main.rs (lines 102-108). -/
inductive MouseEvent where
  | Moved (x y : ℚ)
  | LeftClick (c : Bool)
  | RightClick (c : Bool)
  | Scroll (x y : ℚ)
  | ScrollDiscrete (x y : ℚ)
deriving DecidableEq

/-- `const MOUSE_SENSITIVITY: f32 = 0.1` (line 125). -/
def MOUSE_SENSITIVITY : ℚ := 1/10

/-- The mutable pointer state of `struct Azimuth`: `yaw`, `pitch`, `datamap`. -/
structure AzimuthState where
  yaw : ℚ
  pitch : ℚ
  datamap : Datamap
deriving DecidableEq

/-- Rust `f32::clamp(lo, hi)`: `if x < lo { lo } else if x > hi { hi } else { x }`. -/
def clampQ (x lo hi : ℚ) : ℚ := if x < lo then lo else if x > hi then hi else x

/-- Shell side effects performed by `Azimuth::frame`.  `setRotation` records
the `(yaw, pitch)` pair that determines the published quaternion
`rot_y(-yaw°) * rot_x(-pitch°)` (lines 256-258); `setPosition` is always
`set_position(Some(hmd), [0.0; 3])` (line 246), so it carries no data. -/
inductive Effect where
  | setPosition
  | setRotation (yaw pitch : ℚ)
  | setDatamap (d : Datamap)
  | spawnPointerHit
  | spawnKeyboardSend (events : List Nat)
deriving DecidableEq

/-- Whether an effect is a `set_rotation` call. -/
def Effect.isSetRotation : Effect → Bool
  | .setRotation _ _ => true
  | _ => false

/-- Whether a mouse event is a `Moved` event. -/
def MouseEvent.isMoved : MouseEvent → Bool
  | .Moved _ _ => true
  | _ => false

/-- The mouse-event drain loop of `Azimuth::frame` (lines 249-265): events are
processed in arrival order; each `Moved` event integrates yaw and pitch,
clamps pitch to `[-90, 90]`, and emits one `set_rotation`; button edges and
scroll events overwrite the corresponding `Datamap` field. -/
def drainMouse (s : AzimuthState) : List MouseEvent → AzimuthState × List Effect
  | [] => (s, [])
  | e :: rest =>
    match e with
    | .Moved x y =>
      let yaw := s.yaw + x * MOUSE_SENSITIVITY
      let pitch := clampQ (s.pitch + y * MOUSE_SENSITIVITY) (-90) 90
      let res := drainMouse { s with yaw := yaw, pitch := pitch } rest
      (res.1, Effect.setRotation yaw pitch :: res.2)
    | .LeftClick c =>
      drainMouse { s with datamap := { s.datamap with select := if c then 1 else 0 } } rest
    | .RightClick c =>
      drainMouse { s with datamap := { s.datamap with grab := if c then 1 else 0 } } rest
    | .Scroll x y =>
      drainMouse { s with datamap := { s.datamap with scroll := ⟨x, y⟩ } } rest
    | .ScrollDiscrete x y =>
      drainMouse { s with datamap := { s.datamap with scroll := ⟨x, y⟩ } } rest

/-- `Azimuth::frame` (lines 244-282): reset position from the HMD anchor,
zero the scroll field, drain the mouse queue, push the serialized datamap,
spawn the pointer-hit pass, and, when the drained keyboard batch is
non-empty, spawn the keyboard-send pass. -/
def frame (s : AzimuthState) (mouseEvents : List MouseEvent) (keyEvents : List Nat) :
    AzimuthState × List Effect :=
  let s1 : AzimuthState := { s with datamap := { s.datamap with scroll := ⟨0, 0⟩ } }
  let res := drainMouse s1 mouseEvents
  let base := Effect.setPosition :: res.2 ++ [Effect.setDatamap res.1.datamap, Effect.spawnPointerHit]
  if keyEvents.isEmpty then (res.1, base)
  else (res.1, base ++ [Effect.spawnKeyboardSend keyEvents])

/-- Sum of the `x` deltas of the `Moved` events of a list. -/
def sumDx : List MouseEvent → ℚ
  | [] => 0
  | .Moved x _ :: rest => x + sumDx rest
  | _ :: rest => sumDx rest

/-- Sum of the `y` deltas of the `Moved` events of a list. -/
def sumDy : List MouseEvent → ℚ
  | [] => 0
  | .Moved _ y :: rest => y + sumDy rest
  | _ :: rest => sumDy rest

/-- Per-event clamped pitch integration: the pitch actually computed by the
drain loop, clamping after every `Moved` event. -/
def pitchFold (p : ℚ) : List MouseEvent → ℚ
  | [] => p
  | .Moved _ y :: rest => pitchFold (clampQ (p + y * MOUSE_SENSITIVITY) (-90) 90) rest
  | _ :: rest => pitchFold p rest

/-- The scroll value written by a mouse event, if any (both continuous and
discrete scroll write the same field). -/
def scrollOf : MouseEvent → Option Vec2
  | .Scroll x y => some ⟨x, y⟩
  | .ScrollDiscrete x y => some ⟨x, y⟩
  | _ => none

/-- The last scroll value of a list of events, if any. -/
def lastScroll : List MouseEvent → Option Vec2
  | [] => none
  | e :: rest =>
    match lastScroll rest with
    | some v => some v
    | none => scrollOf e

/-- The `x` delta contributed by one event to the yaw sum. -/
def dxOf : MouseEvent → ℚ
  | .Moved x _ => x
  | _ => 0

lemma sumDx_eq_map_sum (evs : List MouseEvent) : sumDx evs = (evs.map dxOf).sum := by
  induction evs with
  | nil => rfl
  | cons e rest ih => cases e <;> simp [sumDx, dxOf, ih]

lemma drainMouse_yaw (evs : List MouseEvent) :
    ∀ s : AzimuthState, (drainMouse s evs).1.yaw = s.yaw + MOUSE_SENSITIVITY * sumDx evs := by
  induction evs with
  | nil => intro s; simp [drainMouse, sumDx]
  | cons e rest ih =>
    intro s
    cases e <;>
      (simp [drainMouse, sumDx, ih]
       try ring)

lemma drainMouse_pitch (evs : List MouseEvent) :
    ∀ s : AzimuthState, (drainMouse s evs).1.pitch = pitchFold s.pitch evs := by
  induction evs with
  | nil => intro s; simp [drainMouse, pitchFold]
  | cons e rest ih =>
    intro s
    cases e <;> simp [drainMouse, pitchFold, ih]

lemma drainMouse_scroll (evs : List MouseEvent) :
    ∀ s : AzimuthState,
      (drainMouse s evs).1.datamap.scroll = (lastScroll evs).getD s.datamap.scroll := by
  induction evs with
  | nil => intro s; simp [drainMouse, lastScroll]
  | cons e rest ih =>
    intro s
    cases e <;>
      (simp [drainMouse, lastScroll, scrollOf, ih]
       cases h : lastScroll rest <;> simp [h])

lemma drainMouse_append (l1 l2 : List MouseEvent) :
    ∀ s : AzimuthState,
      drainMouse s (l1 ++ l2) =
        ((drainMouse (drainMouse s l1).1 l2).1,
          (drainMouse s l1).2 ++ (drainMouse (drainMouse s l1).1 l2).2) := by
  induction l1 with
  | nil => intro s; simp [drainMouse]
  | cons e rest ih =>
    intro s
    cases e <;> simp [drainMouse, ih]

lemma drainMouse_rotCount (evs : List MouseEvent) :
    ∀ s : AzimuthState,
      (drainMouse s evs).2.countP Effect.isSetRotation = evs.countP MouseEvent.isMoved := by
  induction evs with
  | nil => intro s; simp [drainMouse]
  | cons e rest ih =>
    intro s
    cases e <;> simp [drainMouse, List.countP_cons, Effect.isSetRotation, MouseEvent.isMoved, ih]

/-- The initial pointer state built by `Azimuth::create` (lines 161-167):
yaw 0, pitch 0, all datamap fields zero. -/
def initState : AzimuthState := ⟨0, 0, ⟨0, 0, ⟨0, 0⟩⟩⟩

/-- C1 (amended): for every frame, the resulting yaw equals the previous yaw
plus `sum(dx) × 0.1`, and yaw is independent of the order in which the events
are folded; the resulting pitch is obtained by clamping to `[-90, 90]` after
each `Moved` event in arrival order (a left fold of clamp-after-add), not by a
single clamp of the summed deltas. -/
theorem frame_yaw_pitch (s : AzimuthState) (mevs mevs' : List MouseEvent)
    (kevs : List Nat) (hperm : mevs.Perm mevs') :
    (frame s mevs kevs).1.yaw = s.yaw + MOUSE_SENSITIVITY * sumDx mevs
    ∧ (frame s mevs kevs).1.yaw = (frame s mevs' kevs).1.yaw
    ∧ (frame s mevs kevs).1.pitch = pitchFold s.pitch mevs := by
  have hyaw : ∀ l : List MouseEvent, (frame s l kevs).1.yaw
      = s.yaw + MOUSE_SENSITIVITY * sumDx l := by
    intro l
    unfold frame
    by_cases h : kevs.isEmpty <;> simp [h, drainMouse_yaw]
  refine ⟨hyaw mevs, ?_, ?_⟩
  · rw [hyaw mevs, hyaw mevs', sumDx_eq_map_sum, sumDx_eq_map_sum,
      List.Perm.sum_eq (hperm.map dxOf)]
  · unfold frame
    by_cases h : kevs.isEmpty <;> simp [h, drainMouse_pitch]

/-- Witness for `frame_yaw_pitch` at a concrete input. -/
theorem frame_yaw_pitch_witness :
    (frame initState [MouseEvent.Moved 2 3] []).1.yaw
        = initState.yaw + MOUSE_SENSITIVITY * sumDx [MouseEvent.Moved 2 3]
    ∧ (frame initState [MouseEvent.Moved 2 3] []).1.yaw
        = (frame initState [MouseEvent.Moved 2 3] []).1.yaw
    ∧ (frame initState [MouseEvent.Moved 2 3] []).1.pitch
        = pitchFold initState.pitch [MouseEvent.Moved 2 3] :=
  frame_yaw_pitch initState [MouseEvent.Moved 2 3] [MouseEvent.Moved 2 3] []
    (List.Perm.refl _)

/-- C1 (counterexample): with previous pitch 0 and the `Moved` deltas
`[(0, 1000), (0, -1000)]` drained in one frame, the code's per-event clamping
yields pitch `-10`, not `clamp(0 + sum(dy)×0.1, -90, 90) = 0` as the claim
states; folding the same events in the opposite order yields `10`, so pitch is
also not order-independent. -/
theorem frame_pitch_counterexample :
    (frame initState [MouseEvent.Moved 0 1000, MouseEvent.Moved 0 (-1000)] []).1.pitch = -10
    ∧ clampQ (initState.pitch
        + sumDy [MouseEvent.Moved 0 1000, MouseEvent.Moved 0 (-1000)] * MOUSE_SENSITIVITY)
        (-90) 90 = 0
    ∧ (frame initState [MouseEvent.Moved 0 1000, MouseEvent.Moved 0 (-1000)] []).1.pitch
        ≠ clampQ (initState.pitch
            + sumDy [MouseEvent.Moved 0 1000, MouseEvent.Moved 0 (-1000)] * MOUSE_SENSITIVITY)
            (-90) 90
    ∧ (frame initState [MouseEvent.Moved 0 (-1000), MouseEvent.Moved 0 1000] []).1.pitch = 10 := by
  have hp : ∀ l : List MouseEvent,
      (frame initState l []).1.pitch = pitchFold initState.pitch l := by
    intro l
    unfold frame
    simp [drainMouse_pitch]
  have e1 : (frame initState [MouseEvent.Moved 0 1000, MouseEvent.Moved 0 (-1000)] []).1.pitch
      = -10 := by
    rw [hp]
    norm_num [pitchFold, clampQ, initState, MOUSE_SENSITIVITY]
  have e2 : clampQ (initState.pitch
      + sumDy [MouseEvent.Moved 0 1000, MouseEvent.Moved 0 (-1000)] * MOUSE_SENSITIVITY)
      (-90) 90 = 0 := by
    norm_num [sumDy, clampQ, initState, MOUSE_SENSITIVITY]
  have e3 : (frame initState [MouseEvent.Moved 0 (-1000), MouseEvent.Moved 0 1000] []).1.pitch
      = 10 := by
    rw [hp]
    norm_num [pitchFold, clampQ, initState, MOUSE_SENSITIVITY]
  refine ⟨e1, e2, ?_, e3⟩
  rw [e1, e2]
  norm_num

/-- C7 (amended): on every frame tick, regardless of which events arrived, the
first shell effect is the wholesale position reset from the HMD anchor, the
serialized datamap is pushed (even if unchanged), and the pointer-hit pass is
spawned; but the derived orientation is pushed exactly once per drained
`Moved` event, so a frame that drains no `Moved` event pushes no rotation. -/
theorem frame_effects (s : AzimuthState) (mevs : List MouseEvent) (kevs : List Nat) :
    (frame s mevs kevs).2.head? = some Effect.setPosition
    ∧ Effect.setDatamap (frame s mevs kevs).1.datamap ∈ (frame s mevs kevs).2
    ∧ (frame s mevs kevs).2.countP Effect.isSetRotation = mevs.countP MouseEvent.isMoved
    ∧ Effect.spawnPointerHit ∈ (frame s mevs kevs).2 := by
  unfold frame
  by_cases h : kevs.isEmpty <;>
    simp [h, List.countP_cons, List.countP_append, drainMouse_rotCount, Effect.isSetRotation]

/-- C7 (counterexample): a frame tick that drains no events pushes the
position reset and the datamap but performs no `set_rotation` at all, so the
derived orientation is not pushed to the shell on every frame. -/
theorem frame_no_rotation_counterexample :
    (frame initState [] []).2.countP Effect.isSetRotation = 0
    ∧ Effect.setPosition ∈ (frame initState [] []).2
    ∧ Effect.setDatamap (frame initState [] []).1.datamap ∈ (frame initState [] []).2 := by
  decide

/-- C8: the scroll field is zeroed at the start of every frame before the
queue is drained, so after a frame with no scroll event of either kind it is
`(0, 0)`, and after a frame with scroll events it equals the value of the last
one (last-writer-wins, continuous and discrete scroll writing the same
field). -/
theorem frame_scroll (s : AzimuthState) (mevs : List MouseEvent) (kevs : List Nat) :
    (frame s mevs kevs).1.datamap.scroll = (lastScroll mevs).getD ⟨0, 0⟩ := by
  unfold frame
  by_cases h : kevs.isEmpty <;> simp [h, drainMouse_scroll]

/-- C9: a button-down edge sets the corresponding level to 1 and an up edge
sets it to 0, regardless of the prior value; hence two consecutive down edges
leave the level at 1 and an up edge with no prior down yields 0. -/
theorem button_level_idempotent (s : AzimuthState) (evs : List MouseEvent) (c : Bool) :
    (drainMouse s (evs ++ [MouseEvent.LeftClick c])).1.datamap.select = (if c then 1 else 0)
    ∧ (drainMouse s (evs ++ [MouseEvent.RightClick c])).1.datamap.grab = (if c then 1 else 0)
    ∧ (drainMouse s [MouseEvent.LeftClick true, MouseEvent.LeftClick true]).1.datamap.select = 1
    ∧ (drainMouse s [MouseEvent.LeftClick false]).1.datamap.select = 0
    ∧ (drainMouse s [MouseEvent.RightClick true, MouseEvent.RightClick true]).1.datamap.grab = 1
    ∧ (drainMouse s [MouseEvent.RightClick false]).1.datamap.grab = 0 := by
  refine ⟨?_, ?_, by simp [drainMouse], by simp [drainMouse], by simp [drainMouse],
    by simp [drainMouse]⟩ <;>
    rw [drainMouse_append] <;> simp [drainMouse]

/-- `RayMarchResult { hit: bool, deepest_point_distance: f32 }` returned by a
candidate's `ray_march` distance query. -/
structure RayMarchResult where
  hit : Bool
  deepest_point_distance : ℚ
deriving DecidableEq

/-- One completed entry drained from the `JoinSet` in completion order
(line 182 / 221): the task may have failed (`joinErr`), the distance query may
have errored (`queryErr`), or it returned a `RayMarchResult` for the handler /
receiver with the given id. -/
inductive QueryOutcome where
  | joinErr
  | queryErr (id : Nat)
  | ok (id : Nat) (info : RayMarchResult)
deriving DecidableEq

/-- The body of the `while let Some(res) = join.join_next().await` loop of
`handle_pointer_hit` (lines 182-197), acting on the `closest_hits`
accumulator. -/
def pointerHitStep (acc : Option (List Nat × RayMarchResult)) :
    QueryOutcome → Option (List Nat × RayMarchResult)
  | .joinErr => acc
  | .queryErr _ => acc
  | .ok handler rayInfo =>
    if rayInfo.hit = false then acc
    else
      match acc with
      | some (hitHandlers, hitInfo) =>
        if rayInfo.deepest_point_distance = hitInfo.deepest_point_distance then
          some (hitHandlers ++ [handler], hitInfo)
        else if rayInfo.deepest_point_distance < hitInfo.deepest_point_distance then
          some ([handler], rayInfo)
        else acc
      | none => some ([handler], rayInfo)

/-- The `closest_hits` value after draining all results in completion order. -/
def pointerHitFold (results : List QueryOutcome) : Option (List Nat × RayMarchResult) :=
  results.foldl pointerHitStep none

/-- The ordering `handle_pointer_hit` publishes via `set_handler_order`
(lines 199-204): the accumulated winner list, or the empty list when no hit
was recorded. -/
def handle_pointer_hit (results : List QueryOutcome) : List Nat :=
  match pointerHitFold results with
  | some (hitHandlers, _) => hitHandlers
  | none => []

/-- The `(id, distance)` entry a query outcome contributes to the pointer-hit
comparison: present exactly when the query succeeded and reported `hit`. -/
def hitEntry? : QueryOutcome → Option (Nat × ℚ)
  | .ok h i => if i.hit then some (h, i.deepest_point_distance) else none
  | _ => none

/-- All successful `hit = true` entries of a completion-order list. -/
def hitEntries (results : List QueryOutcome) : List (Nat × ℚ) :=
  results.filterMap hitEntry?

/-- Minimum of the distances of an entry list (`none` when empty). -/
def minDists : List (Nat × ℚ) → Option ℚ
  | [] => none
  | p :: rest =>
    match minDists rest with
    | none => some p.2
    | some m => some (min p.2 m)

/-- The ids of the entries at distance `m`, in list order. -/
def entriesAt (m : ℚ) : List (Nat × ℚ) → List Nat
  | [] => []
  | p :: rest => if p.2 = m then p.1 :: entriesAt m rest else entriesAt m rest

/-- The id of the first entry at distance `m`, if any. -/
def firstAt (m : ℚ) : List (Nat × ℚ) → Option Nat
  | [] => none
  | p :: rest => if p.2 = m then some p.1 else firstAt m rest

lemma minDists_eq_none_iff (l : List (Nat × ℚ)) : minDists l = none ↔ l = [] := by
  cases l with
  | nil => simp [minDists]
  | cons p rest =>
    simp only [minDists]
    cases minDists rest <;> simp

lemma minDists_le (l : List (Nat × ℚ)) :
    ∀ m : ℚ, minDists l = some m → ∀ p ∈ l, m ≤ p.2 := by
  induction l with
  | nil => intro m hm p hp; simp at hp
  | cons q rest ih =>
    intro m hm p hp
    rw [List.mem_cons] at hp
    cases hrest : minDists rest with
    | none =>
      rw [minDists_eq_none_iff] at hrest
      subst hrest
      simp only [minDists, Option.some_inj] at hm
      rcases hp with rfl | hp
      · exact le_of_eq hm.symm
      · simp at hp
    | some m' =>
      simp only [minDists, hrest, Option.some_inj] at hm
      rcases hp with rfl | hp
      · rw [← hm]; exact min_le_left _ _
      · rw [← hm]; exact le_trans (min_le_right _ _) (ih m' hrest p hp)

lemma minDists_concat (l : List (Nat × ℚ)) (p : Nat × ℚ) :
    minDists (l ++ [p]) =
      match minDists l with
      | none => some p.2
      | some m => some (min m p.2) := by
  induction l with
  | nil => simp [minDists]
  | cons q rest ih =>
    cases hrest : minDists rest with
    | none =>
      rw [minDists_eq_none_iff] at hrest
      subst hrest
      simp [minDists]
    | some m' =>
      have ihm : minDists (rest ++ [p]) = some (min m' p.2) := by rw [ih, hrest]
      simp only [List.cons_append, minDists, List.append_eq]
      rw [ihm, hrest]
      simp [min_assoc]

lemma entriesAt_append (m : ℚ) (l1 l2 : List (Nat × ℚ)) :
    entriesAt m (l1 ++ l2) = entriesAt m l1 ++ entriesAt m l2 := by
  induction l1 with
  | nil => simp [entriesAt]
  | cons p rest ih =>
    by_cases h : p.2 = m <;> simp [entriesAt, h, ih]

lemma entriesAt_eq_nil (m : ℚ) (l : List (Nat × ℚ)) (h : ∀ p ∈ l, p.2 ≠ m) :
    entriesAt m l = [] := by
  induction l with
  | nil => rfl
  | cons p rest ih =>
    simp only [entriesAt]
    rw [if_neg (h p (by simp))]
    exact ih fun q hq => h q (by simp [hq])

lemma mem_entriesAt (m : ℚ) (l : List (Nat × ℚ)) (h : Nat) :
    h ∈ entriesAt m l ↔ (h, m) ∈ l := by
  induction l with
  | nil => simp [entriesAt]
  | cons p rest ih =>
    rcases p with ⟨a, b⟩
    by_cases hb : b = m
    · subst hb
      simp [entriesAt, ih, Prod.ext_iff]
    · have hb' : ¬ m = b := fun hmb => hb hmb.symm
      simp [entriesAt, hb, hb', ih, Prod.ext_iff]

/-- Characterization of the pointer-hit completion fold: the accumulator ends
as the `hit = true` entries at the minimum distance, in completion order, with
the stored ray info having that minimum distance. -/
lemma pointerHitFold_eq (rs : List QueryOutcome) :
    pointerHitFold rs =
      match minDists (hitEntries rs) with
      | none => none
      | some m => some (entriesAt m (hitEntries rs), ⟨true, m⟩) := by
  induction rs using List.reverseRecOn with
  | nil => rfl
  | append_singleton l r ih =>
    rw [pointerHitFold, List.foldl_append, ← pointerHitFold]
    rw [ih]
    cases r with
    | joinErr => simp [pointerHitStep, hitEntries, hitEntry?]
    | queryErr i => simp [pointerHitStep, hitEntries, hitEntry?]
    | ok h i =>
      rcases i with ⟨hit, d⟩
      cases hit with
      | false =>
        simp [pointerHitStep, hitEntries, List.filterMap_append, hitEntry?]
      | true =>
        have hentries : hitEntries (l ++ [QueryOutcome.ok h ⟨true, d⟩])
            = hitEntries l ++ [(h, d)] := by
          simp [hitEntries, List.filterMap_append, hitEntry?]
        rw [hentries, minDists_concat]
        cases hml : minDists (hitEntries l) with
        | none =>
          rw [minDists_eq_none_iff] at hml
          simp [pointerHitStep, hml, entriesAt]
        | some m =>
          rcases lt_trichotomy d m with hlt | heq | hgt
          · have hne : ¬ d = m := ne_of_lt hlt
            have hnil : entriesAt d (hitEntries l) = [] :=
              entriesAt_eq_nil d _ fun p hp =>
                ne_of_gt (lt_of_lt_of_le hlt (minDists_le _ m hml p hp))
            simp [pointerHitStep, hne, hlt, min_eq_right (le_of_lt hlt),
              entriesAt_append, entriesAt, hnil]
          · subst heq
            simp [pointerHitStep, entriesAt_append, entriesAt, min_self]
          · have hne : ¬ d = m := ne_of_gt hgt
            have hnlt : ¬ d < m := not_lt_of_gt hgt
            simp [pointerHitStep, hne, hnlt, min_eq_left (le_of_lt hgt),
              entriesAt_append, entriesAt]

lemma minDists_perm {l1 l2 : List (Nat × ℚ)} (h : l1.Perm l2) :
    minDists l1 = minDists l2 := by
  induction h with
  | nil => rfl
  | cons x h ih => simp only [minDists, ih]
  | swap x y l =>
    simp only [minDists]
    cases minDists l <;> simp [min_assoc, min_comm x.2 y.2, min_left_comm]
  | trans h1 h2 ih1 ih2 => rw [ih1, ih2]

lemma handle_pointer_hit_eq (rs : List QueryOutcome) :
    handle_pointer_hit rs =
      match minDists (hitEntries rs) with
      | none => []
      | some m => entriesAt m (hitEntries rs) := by
  rw [handle_pointer_hit, pointerHitFold_eq]
  cases minDists (hitEntries rs) <;> rfl

lemma mem_handle_pointer_hit (rs : List QueryOutcome) (h : Nat) :
    h ∈ handle_pointer_hit rs
      ↔ ∃ m, minDists (hitEntries rs) = some m ∧ (h, m) ∈ hitEntries rs := by
  rw [handle_pointer_hit_eq]
  cases hm : minDists (hitEntries rs) with
  | none => simp
  | some m => simp [mem_entriesAt]

/-- The spec's four-candidate example: successful hits at distances
`[3.0, 1.0, 1.0, 5.0]`. -/
def exampleFour : List QueryOutcome :=
  [QueryOutcome.ok 0 ⟨true, 3⟩, QueryOutcome.ok 1 ⟨true, 1⟩,
   QueryOutcome.ok 2 ⟨true, 1⟩, QueryOutcome.ok 3 ⟨true, 5⟩]

lemma minDists_hitEntries_exampleFour : minDists (hitEntries exampleFour) = some 1 := by
  norm_num [exampleFour, hitEntries, hitEntry?, minDists]

lemma mem_hitEntries_exampleFour (h : Nat) :
    (h, (1 : ℚ)) ∈ hitEntries exampleFour ↔ h = 1 ∨ h = 2 := by
  norm_num [exampleFour, hitEntries, hitEntry?, Prod.ext_iff]
  omega

/-- C2: the winner set computed by a pointer-hit pass is exactly the set of
candidates whose query succeeded with `hit = true` at the minimum such
distance (exact equality, ties kept, strictly smaller replaces, strictly
larger discarded); as a set it is invariant under completion order; a failed
task or errored query is skipped without affecting the rest of the pass; and
for successful hits at distances `[3, 1, 1, 5]` the winner set is exactly the
two candidates at distance 1 under every completion order. -/
theorem pointer_hit_winner_set (rs rs' : List QueryOutcome) (hperm : rs.Perm rs') :
    (∀ h, h ∈ handle_pointer_hit rs
        ↔ ∃ m, minDists (hitEntries rs) = some m ∧ (h, m) ∈ hitEntries rs)
    ∧ (∀ h, h ∈ handle_pointer_hit rs ↔ h ∈ handle_pointer_hit rs')
    ∧ (∀ l1 l2 : List QueryOutcome,
        handle_pointer_hit (l1 ++ QueryOutcome.joinErr :: l2) = handle_pointer_hit (l1 ++ l2)
        ∧ ∀ i, handle_pointer_hit (l1 ++ QueryOutcome.queryErr i :: l2)
            = handle_pointer_hit (l1 ++ l2))
    ∧ (rs.Perm exampleFour → ∀ h, h ∈ handle_pointer_hit rs ↔ h = 1 ∨ h = 2) := by
  have hent : (hitEntries rs).Perm (hitEntries rs') := hperm.filterMap hitEntry?
  refine ⟨fun h => mem_handle_pointer_hit rs h, ?_, ?_, ?_⟩
  · intro h
    rw [mem_handle_pointer_hit, mem_handle_pointer_hit, minDists_perm hent]
    constructor
    · rintro ⟨m, hm, hmem⟩
      exact ⟨m, hm, hent.mem_iff.mp hmem⟩
    · rintro ⟨m, hm, hmem⟩
      exact ⟨m, hm, hent.mem_iff.mpr hmem⟩
  · intro l1 l2
    constructor
    · simp [handle_pointer_hit, pointerHitFold, List.foldl_append, pointerHitStep]
    · intro i
      simp [handle_pointer_hit, pointerHitFold, List.foldl_append, pointerHitStep]
  · intro hperm4 h
    have hent4 : (hitEntries rs).Perm (hitEntries exampleFour) := hperm4.filterMap hitEntry?
    have hmin : minDists (hitEntries rs) = some 1 := by
      rw [minDists_perm hent4]
      exact minDists_hitEntries_exampleFour
    rw [mem_handle_pointer_hit]
    constructor
    · rintro ⟨m, hm, hmem⟩
      rw [hmin] at hm
      have hm1 : m = 1 := (Option.some_inj.mp hm).symm
      subst hm1
      exact (mem_hitEntries_exampleFour h).mp (hent4.mem_iff.mp hmem)
    · intro hh
      exact ⟨1, hmin, hent4.mem_iff.mpr ((mem_hitEntries_exampleFour h).mpr hh)⟩

/-- Witness for `pointer_hit_winner_set`: in the `[3, 1, 1, 5]` example the
candidate at index 1 (distance 1) is in the winner set. -/
theorem pointer_hit_winner_set_witness : 1 ∈ handle_pointer_hit exampleFour :=
  ((pointer_hit_winner_set exampleFour exampleFour (List.Perm.refl _)).2.2.2
    (List.Perm.refl _) 1).mpr (Or.inl rfl)

/-- Two candidates tied at distance 1, completing in the two possible orders. -/
def tiePairA : List QueryOutcome :=
  [QueryOutcome.ok 0 ⟨true, 1⟩, QueryOutcome.ok 1 ⟨true, 1⟩]

/-- The same two results in the opposite completion order. -/
def tiePairB : List QueryOutcome :=
  [QueryOutcome.ok 1 ⟨true, 1⟩, QueryOutcome.ok 0 ⟨true, 1⟩]

/-- C3 (counterexample): the published ordering depends on the completion
order — two tied candidates publish `[0, 1]` or `[1, 0]` according to which
query completed first, so the ordering is neither the discovery order nor
invariant under permutations of the completion order. -/
theorem pointer_hit_order_counterexample :
    tiePairA.Perm tiePairB
    ∧ handle_pointer_hit tiePairA = [0, 1]
    ∧ handle_pointer_hit tiePairB = [1, 0]
    ∧ handle_pointer_hit tiePairA ≠ handle_pointer_hit tiePairB := by
  refine ⟨?_, ?_, ?_, ?_⟩ <;> decide

/-- C3 (amended): the published ordering is the minimum-distance hits in query
completion order (within ties, completion order rather than discovery order);
the membership of the published set — though not its order — is invariant
under permutations of the completion order; and when there is no successful
hit the published ordering is empty. -/
theorem pointer_hit_publish_order (rs : List QueryOutcome) :
    (handle_pointer_hit rs =
      match minDists (hitEntries rs) with
      | none => []
      | some m => entriesAt m (hitEntries rs))
    ∧ (hitEntries rs = [] → handle_pointer_hit rs = [])
    ∧ (∀ rs' : List QueryOutcome, rs.Perm rs' →
        ∀ h, h ∈ handle_pointer_hit rs ↔ h ∈ handle_pointer_hit rs') := by
  refine ⟨handle_pointer_hit_eq rs, ?_, ?_⟩
  · intro hnil
    rw [handle_pointer_hit_eq, hnil]
    rfl
  · intro rs' hperm h
    have hent : (hitEntries rs).Perm (hitEntries rs') := hperm.filterMap hitEntry?
    rw [mem_handle_pointer_hit, mem_handle_pointer_hit, minDists_perm hent]
    constructor
    · rintro ⟨m, hm, hmem⟩
      exact ⟨m, hm, hent.mem_iff.mp hmem⟩
    · rintro ⟨m, hm, hmem⟩
      exact ⟨m, hm, hent.mem_iff.mpr hmem⟩

/-- Witness for `pointer_hit_publish_order`: a pass whose only result is a
failed task publishes the empty ordering, and membership is stable under the
identity permutation. -/
theorem pointer_hit_publish_order_witness :
    handle_pointer_hit [QueryOutcome.joinErr] = []
    ∧ (0 ∈ handle_pointer_hit tiePairA ↔ 0 ∈ handle_pointer_hit tiePairA) :=
  ⟨(pointer_hit_publish_order [QueryOutcome.joinErr]).2.1 rfl,
   (pointer_hit_publish_order tiePairA).2.2 tiePairA (List.Perm.refl _) 0⟩

/-- The body of the `while let` drain loop of `handle_keyboard_send`
(lines 221-234): a result is skipped when the task or query failed, when
`hit` is false, or when the distance is at or below the `0.001` validity
threshold; otherwise it replaces the current best only when strictly
smaller. -/
def keyboardStep (acc : Option (Nat × RayMarchResult)) :
    QueryOutcome → Option (Nat × RayMarchResult)
  | .joinErr => acc
  | .queryErr _ => acc
  | .ok receiver rayInfo =>
    if rayInfo.hit = false ∨ rayInfo.deepest_point_distance ≤ 1/1000 then acc
    else
      match acc with
      | some (_, hitInfo) =>
        if rayInfo.deepest_point_distance < hitInfo.deepest_point_distance then
          some (receiver, rayInfo)
        else acc
      | none => some (receiver, rayInfo)

/-- The `closest_hit` value after draining all results in completion order. -/
def keyboardFold (results : List QueryOutcome) : Option (Nat × RayMarchResult) :=
  results.foldl keyboardStep none

/-- The `(id, distance)` entry a query outcome contributes to the router
comparison: present exactly when the query succeeded, `hit` is true, and the
distance strictly exceeds the `0.001` validity threshold. -/
def qualEntry? : QueryOutcome → Option (Nat × ℚ)
  | .ok r i =>
    if i.hit = false ∨ i.deepest_point_distance ≤ 1/1000 then none
    else some (r, i.deepest_point_distance)
  | _ => none

/-- All qualifying router entries of a completion-order list. -/
def qualEntries (results : List QueryOutcome) : List (Nat × ℚ) :=
  results.filterMap qualEntry?

lemma firstAt_append (m : ℚ) (l1 l2 : List (Nat × ℚ)) :
    firstAt m (l1 ++ l2) =
      match firstAt m l1 with
      | some r => some r
      | none => firstAt m l2 := by
  induction l1 with
  | nil => simp [firstAt]
  | cons p rest ih =>
    by_cases h : p.2 = m <;> simp [firstAt, h, ih]

lemma firstAt_eq_none (m : ℚ) (l : List (Nat × ℚ)) (h : ∀ p ∈ l, p.2 ≠ m) :
    firstAt m l = none := by
  induction l with
  | nil => rfl
  | cons p rest ih =>
    simp only [firstAt]
    rw [if_neg (h p (by simp))]
    exact ih fun q hq => h q (by simp [hq])

lemma firstAt_mem (m : ℚ) (l : List (Nat × ℚ)) (r : Nat) (h : firstAt m l = some r) :
    (r, m) ∈ l := by
  induction l with
  | nil => simp [firstAt] at h
  | cons p rest ih =>
    by_cases hp : p.2 = m
    · simp only [firstAt, if_pos hp] at h
      rw [Option.some_inj] at h
      rw [← h, ← hp]
      exact List.mem_cons_self _ _
    · simp only [firstAt, if_neg hp] at h
      exact List.mem_cons_of_mem _ (ih h)

lemma firstAt_isSome_of_minDists (l : List (Nat × ℚ)) (m : ℚ) (hm : minDists l = some m) :
    ∃ r, firstAt m l = some r := by
  induction l with
  | nil => simp [minDists] at hm
  | cons p rest ih =>
    by_cases hp : p.2 = m
    · exact ⟨p.1, by simp [firstAt, hp]⟩
    · cases hrest : minDists rest with
      | none =>
        rw [minDists_eq_none_iff] at hrest
        subst hrest
        simp only [minDists, Option.some_inj] at hm
        exact absurd hm hp
      | some m' =>
        simp only [minDists, hrest, Option.some_inj] at hm
        rcases min_cases p.2 m' with ⟨he, _⟩ | ⟨he, _⟩
        · exact absurd (he ▸ hm) hp
        · have hm' : m' = m := he ▸ hm
          obtain ⟨r, hr⟩ := ih (hm' ▸ hrest)
          exact ⟨r, by simp [firstAt, hp, hr]⟩

lemma keyboardStep_ok_pos (acc : Option (Nat × RayMarchResult)) (rcv : Nat)
    (i : RayMarchResult) (h : i.hit = false ∨ i.deepest_point_distance ≤ 1/1000) :
    keyboardStep acc (QueryOutcome.ok rcv i) = acc := by
  simp only [keyboardStep]
  rw [if_pos h]

lemma keyboardStep_ok_neg_none (rcv : Nat) (i : RayMarchResult)
    (h : ¬ (i.hit = false ∨ i.deepest_point_distance ≤ 1/1000)) :
    keyboardStep none (QueryOutcome.ok rcv i) = some (rcv, i) := by
  simp only [keyboardStep]
  rw [if_neg h]

lemma keyboardStep_ok_neg_some (r0 : Nat) (i0 : RayMarchResult) (rcv : Nat)
    (i : RayMarchResult) (h : ¬ (i.hit = false ∨ i.deepest_point_distance ≤ 1/1000)) :
    keyboardStep (some (r0, i0)) (QueryOutcome.ok rcv i)
      = if i.deepest_point_distance < i0.deepest_point_distance
        then some (rcv, i) else some (r0, i0) := by
  simp only [keyboardStep]
  rw [if_neg h]

lemma qualEntry?_ok_pos (rcv : Nat) (i : RayMarchResult)
    (h : i.hit = false ∨ i.deepest_point_distance ≤ 1/1000) :
    qualEntry? (QueryOutcome.ok rcv i) = none := by
  simp only [qualEntry?]
  rw [if_pos h]

lemma qualEntry?_ok_neg (rcv : Nat) (i : RayMarchResult)
    (h : ¬ (i.hit = false ∨ i.deepest_point_distance ≤ 1/1000)) :
    qualEntry? (QueryOutcome.ok rcv i) = some (rcv, i.deepest_point_distance) := by
  simp only [qualEntry?]
  rw [if_neg h]

/-- Characterization of the router completion fold: the final `closest_hit`
is the first qualifying entry, in completion order, whose distance attains
the minimum qualifying distance. -/
lemma keyboardFold_eq (rs : List QueryOutcome) :
    keyboardFold rs =
      match minDists (qualEntries rs) with
      | none => none
      | some m =>
        (firstAt m (qualEntries rs)).map fun r => (r, (⟨true, m⟩ : RayMarchResult)) := by
  induction rs using List.reverseRecOn with
  | nil => rfl
  | append_singleton l r ih =>
    rw [keyboardFold, List.foldl_append, ← keyboardFold, ih]
    simp only [List.foldl_cons, List.foldl_nil]
    cases r with
    | joinErr => simp [keyboardStep, qualEntries, qualEntry?]
    | queryErr i => simp [keyboardStep, qualEntries, qualEntry?]
    | ok rcv i =>
      rcases i with ⟨hb, d⟩
      by_cases hq : (⟨hb, d⟩ : RayMarchResult).hit = false
          ∨ (⟨hb, d⟩ : RayMarchResult).deepest_point_distance ≤ 1/1000
      · have hqe : qualEntries (l ++ [QueryOutcome.ok rcv ⟨hb, d⟩]) = qualEntries l := by
          simp [qualEntries, List.filterMap_append, List.filterMap_cons,
            qualEntry?_ok_pos rcv ⟨hb, d⟩ hq]
        rw [hqe, keyboardStep_ok_pos _ rcv ⟨hb, d⟩ hq]
      · have hb' : hb = true := by
          cases hb
          · exact absurd (Or.inl rfl) hq
          · rfl
        subst hb'
        have hth : ¬ d ≤ 1/1000 := fun hc => hq (Or.inr hc)
        have hqe : qualEntries (l ++ [QueryOutcome.ok rcv ⟨true, d⟩])
            = qualEntries l ++ [(rcv, d)] := by
          simp [qualEntries, List.filterMap_append, List.filterMap_cons,
            qualEntry?_ok_neg rcv ⟨true, d⟩ hq]
        rw [hqe, minDists_concat]
        cases hml : minDists (qualEntries l) with
        | none =>
          have hnil : qualEntries l = [] := (minDists_eq_none_iff _).mp hml
          rw [hnil, keyboardStep_ok_neg_none rcv ⟨true, d⟩ hq]
          dsimp only
          simp [firstAt]
        | some m =>
          obtain ⟨r0, hr0⟩ := firstAt_isSome_of_minDists _ m hml
          dsimp only
          rw [hr0]
          dsimp only [Option.map]
          rw [keyboardStep_ok_neg_some r0 ⟨true, m⟩ rcv ⟨true, d⟩ hq]
          rcases lt_trichotomy d m with hlt | heq | hgt
          · have hfn : firstAt d (qualEntries l) = none :=
              firstAt_eq_none d _ fun p hp =>
                ne_of_gt (lt_of_lt_of_le hlt (minDists_le _ m hml p hp))
            rw [min_eq_right (le_of_lt hlt), if_pos hlt, firstAt_append, hfn]
            simp [firstAt]
          · subst heq
            rw [min_self, if_neg (lt_irrefl d), firstAt_append, hr0]
          · rw [min_eq_left (le_of_lt hgt), if_neg (not_lt_of_gt hgt), firstAt_append, hr0]

/-- The spec's router example: hits at distances `[0.0005, 0.5, 0.2]`, all
above-threshold checks against `0.001`. -/
def exampleRouter : List QueryOutcome :=
  [QueryOutcome.ok 0 ⟨true, 1/2000⟩, QueryOutcome.ok 1 ⟨true, 1/2⟩,
   QueryOutcome.ok 2 ⟨true, 1/5⟩]

/-- C4: the routing winner is a candidate whose query succeeded with
`hit = true` and distance strictly above the `0.001` validity threshold, and
its distance is the minimum among such candidates; when no candidate
qualifies there is no winner; a result at or below the threshold never
changes the accumulator; and on the `[0.0005, 0.5, 0.2]` example the winner
is the candidate at `0.2`. -/
theorem keyboard_winner_min (rs : List QueryOutcome) :
    (match keyboardFold rs with
      | none => qualEntries rs = []
      | some (r, i) =>
        (r, i.deepest_point_distance) ∈ qualEntries rs
          ∧ minDists (qualEntries rs) = some i.deepest_point_distance)
    ∧ (∀ (acc : Option (Nat × RayMarchResult)) (rcv : Nat) (i : RayMarchResult),
        (i.hit = false ∨ i.deepest_point_distance ≤ 1/1000) →
          keyboardStep acc (QueryOutcome.ok rcv i) = acc)
    ∧ keyboardFold exampleRouter = some (2, ⟨true, 1/5⟩) := by
  refine ⟨?_, ?_, ?_⟩
  · rw [keyboardFold_eq]
    cases hml : minDists (qualEntries rs) with
    | none => exact (minDists_eq_none_iff _).mp hml
    | some m =>
      obtain ⟨r0, hr0⟩ := firstAt_isSome_of_minDists _ m hml
      dsimp only
      rw [hr0]
      exact ⟨firstAt_mem _ _ _ hr0, rfl⟩
  · exact fun acc rcv i hcond => keyboardStep_ok_pos acc rcv i hcond
  · norm_num [keyboardFold, keyboardStep, exampleRouter, List.foldl_cons, List.foldl_nil]

/-- Witness for `keyboard_winner_min`: a result whose query reported no hit
leaves the accumulator unchanged. -/
theorem keyboard_winner_min_witness :
    keyboardStep none (QueryOutcome.ok 7 ⟨false, 5⟩) = none :=
  (keyboard_winner_min []).2.1 none 7 ⟨false, 5⟩ (Or.inl rfl)

/-- C10: the router keeps at most one receiver: a processed result replaces
the current best exactly when it is a qualifying hit strictly closer than the
current best, so a result tied with the current best distance is discarded
(no tie set); and the final winner, when any candidate qualifies, is the
first-processed entry attaining the minimum qualifying distance. -/
theorem keyboard_single_receiver (rs : List QueryOutcome) (acc : Nat × RayMarchResult)
    (rcv : Nat) (i : RayMarchResult) :
    (keyboardStep (some acc) (QueryOutcome.ok rcv i)
        = if i.hit = true ∧ 1/1000 < i.deepest_point_distance
              ∧ i.deepest_point_distance < acc.2.deepest_point_distance
          then some (rcv, i) else some acc)
    ∧ keyboardStep (some acc) (QueryOutcome.ok rcv ⟨true, acc.2.deepest_point_distance⟩)
        = some acc
    ∧ (keyboardFold rs).map (fun x => (x.1, x.2.deepest_point_distance))
        = (match minDists (qualEntries rs) with
           | none => none
           | some m => (firstAt m (qualEntries rs)).map fun r => (r, m)) := by
  refine ⟨?_, ?_, ?_⟩
  · rcases acc with ⟨r0, i0⟩
    rcases i with ⟨hb, d⟩
    by_cases hq : (⟨hb, d⟩ : RayMarchResult).hit = false
        ∨ (⟨hb, d⟩ : RayMarchResult).deepest_point_distance ≤ 1/1000
    · rw [keyboardStep_ok_pos _ rcv _ hq]
      have hcond : ¬ ((⟨hb, d⟩ : RayMarchResult).hit = true
          ∧ 1/1000 < (⟨hb, d⟩ : RayMarchResult).deepest_point_distance
          ∧ (⟨hb, d⟩ : RayMarchResult).deepest_point_distance
              < (r0, i0).2.deepest_point_distance) := by
        rintro ⟨h1, h2, _⟩
        rcases hq with hq | hq
        · rw [h1] at hq
          exact Bool.noConfusion hq
        · exact absurd hq (not_le.mpr h2)
      rw [if_neg hcond]
    · rw [keyboardStep_ok_neg_some r0 i0 rcv _ hq]
      have hb' : hb = true := by
        cases hb
        · exact absurd (Or.inl rfl) hq
        · rfl
      subst hb'
      have hth : 1/1000 < d := lt_of_not_ge fun hc => hq (Or.inr hc)
      by_cases hlt : d < i0.deepest_point_distance
      · rw [if_pos hlt, if_pos ⟨rfl, hth, hlt⟩]
      · rw [if_neg hlt, if_neg fun hc => hlt hc.2.2]
  · rcases acc with ⟨r0, i0⟩
    by_cases hth : i0.deepest_point_distance ≤ 1/1000
    · exact keyboardStep_ok_pos _ rcv _ (Or.inr hth)
    · rw [keyboardStep_ok_neg_some r0 i0 rcv ⟨true, i0.deepest_point_distance⟩
        fun h => h.elim (fun h1 => Bool.noConfusion h1) fun h2 => hth h2]
      rw [if_neg (lt_irrefl i0.deepest_point_distance)]
  · rw [keyboardFold_eq]
    cases minDists (qualEntries rs) with
    | none => rfl
    | some m =>
      dsimp only
      cases firstAt m (qualEntries rs) <;> rfl

/-- The `for key_event in keyboard_events` forwarding loop at the end of
`handle_keyboard_send` (lines 237-239): each send's result is discarded
(`let _ =`), so the loop always attempts every event in order.  `sendOk`
records whether an individual send succeeded; each attempt is recorded as
`(event, receiver, succeeded)`. -/
def sendLoop (sendOk : Nat → Bool) (receiver : Nat) : List Nat → List (Nat × Nat × Bool)
  | [] => []
  | e :: rest => (e, receiver, sendOk e) :: sendLoop sendOk receiver rest

/-- `handle_keyboard_send`'s delivery (lines 236-239): when no qualifying
winner exists the function returns with no forwarding; otherwise every
drained keyboard event is forwarded to the single winner. -/
def handle_keyboard_send (sendOk : Nat → Bool) (results : List QueryOutcome)
    (keyboard_events : List Nat) : List (Nat × Nat × Bool) :=
  match keyboardFold results with
  | none => []
  | some (hitReceiver, _) => sendLoop sendOk hitReceiver keyboard_events

lemma sendLoop_map_fst (f : Nat → Bool) (r : Nat) (batch : List Nat) :
    (sendLoop f r batch).map Prod.fst = batch := by
  induction batch with
  | nil => rfl
  | cons e rest ih => simp [sendLoop, ih]

lemma sendLoop_map_receiver (f : Nat → Bool) (r : Nat) (batch : List Nat) :
    (sendLoop f r batch).map (fun a => a.2.1) = List.replicate batch.length r := by
  induction batch with
  | nil => rfl
  | cons e rest ih => simp [sendLoop, ih, List.replicate_succ]

lemma sendLoop_map_pair (f g : Nat → Bool) (r : Nat) (batch : List Nat) :
    (sendLoop f r batch).map (fun a => (a.1, a.2.1))
      = (sendLoop g r batch).map (fun a => (a.1, a.2.1)) := by
  induction batch with
  | nil => rfl
  | cons e rest ih => simp [sendLoop, ih]

/-- C6: when no candidate clears the validity threshold, the router forwards
zero events (the whole batch is dropped); when a winner exists, every event
of the batch is forwarded to that single winner in original arrival order;
and which sends succeed has no effect on the attempted (event, receiver)
sequence — a failed send does not prevent the remaining sends. -/
theorem keyboard_batch_forward (f g : Nat → Bool) (rs : List QueryOutcome)
    (batch : List Nat) :
    (match qualEntries rs with
      | [] => handle_keyboard_send f rs batch = []
      | _ :: _ => ∃ rcv info, keyboardFold rs = some (rcv, info)
          ∧ (handle_keyboard_send f rs batch).map Prod.fst = batch
          ∧ (handle_keyboard_send f rs batch).map (fun a => a.2.1)
              = List.replicate batch.length rcv)
    ∧ (handle_keyboard_send f rs batch).map (fun a => (a.1, a.2.1))
        = (handle_keyboard_send g rs batch).map (fun a => (a.1, a.2.1)) := by
  constructor
  · cases hq : qualEntries rs with
    | nil =>
      have hkf : keyboardFold rs = none := by
        rw [keyboardFold_eq, hq]
        rfl
      simp [handle_keyboard_send, hkf]
    | cons p rest =>
      have hne : qualEntries rs ≠ [] := by rw [hq]; simp
      have hmd : ∃ m, minDists (qualEntries rs) = some m := by
        cases hm : minDists (qualEntries rs) with
        | none => exact absurd ((minDists_eq_none_iff _).mp hm) hne
        | some m => exact ⟨m, rfl⟩
      obtain ⟨m, hm⟩ := hmd
      obtain ⟨r0, hr0⟩ := firstAt_isSome_of_minDists _ m hm
      have hkf : keyboardFold rs = some (r0, ⟨true, m⟩) := by
        rw [keyboardFold_eq, hm]
        dsimp only
        rw [hr0]
        rfl
      refine ⟨r0, ⟨true, m⟩, hkf, ?_, ?_⟩
      · simp [handle_keyboard_send, hkf, sendLoop_map_fst]
      · simp [handle_keyboard_send, hkf, sendLoop_map_receiver]
  · cases hkf : keyboardFold rs with
    | none => simp [handle_keyboard_send, hkf]
    | some x =>
      rcases x with ⟨r0, i0⟩
      simp only [handle_keyboard_send, hkf]
      exact sendLoop_map_pair f g r0 batch

/-- Model of the per-frame spawning of detached `handle_pointer_hit` tasks
(`tokio::task::spawn` at line 172, invoked unconditionally from `frame` at
line 270): the state tracks a fresh pass id counter, the ids of resolution
passes spawned but not yet published, and the id of the pass whose
`set_handler_order` publication was applied last. -/
structure HitPassSystem where
  nextId : Nat
  inFlight : List Nat
  published : Option Nat
deriving DecidableEq

/-- One scheduler step: a frame tick — which unconditionally spawns a new
pass, as `frame` calls `handle_pointer_hit` with no guard — or the completion
of any in-flight pass, which publishes its ordering; the code has no
cancellation, generation counter or supersede check, so any outstanding pass
may publish at any time. -/
inductive SysStep : HitPassSystem → HitPassSystem → Prop
  | frameTick (s : HitPassSystem) :
      SysStep s ⟨s.nextId + 1, s.inFlight ++ [s.nextId], s.published⟩
  | passPublish (s : HitPassSystem) (pid : Nat) (h : pid ∈ s.inFlight) :
      SysStep s ⟨s.nextId, s.inFlight.erase pid, some pid⟩

/-- The initial state: no pass spawned yet, nothing published. -/
def sysInit : HitPassSystem := ⟨0, [], none⟩

/-- States reachable from the initial state. -/
def SysReachable : HitPassSystem → Prop :=
  Relation.ReflTransGen SysStep sysInit

/-- C5 (counterexample): a reachable trace in which a frame tick starts a
second resolution pass while the first is still outstanding, the newer pass
(id 1) publishes, and the older pass (id 0) publishes afterwards, overwriting
the newer pass's publication — so neither disjunct of the claim holds: a new
pass is started while one is in flight, and the new pass does not supersede
the old one's publication. -/
theorem hit_pass_overlap_counterexample :
    SysReachable ⟨1, [0], none⟩
    ∧ ((⟨1, [0], none⟩ : HitPassSystem).inFlight ≠ [])
    ∧ SysStep ⟨1, [0], none⟩ ⟨2, [0, 1], none⟩
    ∧ SysStep ⟨2, [0, 1], none⟩ ⟨2, [0], some 1⟩
    ∧ SysStep ⟨2, [0], some 1⟩ ⟨2, [], some 0⟩
    ∧ SysReachable ⟨2, [], some 0⟩ := by
  have h01 : SysStep sysInit ⟨1, [0], none⟩ := SysStep.frameTick sysInit
  have h12 : SysStep ⟨1, [0], none⟩ ⟨2, [0, 1], none⟩ := SysStep.frameTick _
  have h23 : SysStep ⟨2, [0, 1], none⟩ ⟨2, [0], some 1⟩ :=
    SysStep.passPublish ⟨2, [0, 1], none⟩ 1 (by decide)
  have h34 : SysStep ⟨2, [0], some 1⟩ ⟨2, [], some 0⟩ :=
    SysStep.passPublish ⟨2, [0], some 1⟩ 0 (by decide)
  refine ⟨Relation.ReflTransGen.single h01, by decide, h12, h23, h34, ?_⟩
  exact Relation.ReflTransGen.head h01 (Relation.ReflTransGen.head h12
    (Relation.ReflTransGen.head h23 (Relation.ReflTransGen.single h34)))

/-- C5 (amended): the frame tick spawns a new resolution pass unconditionally
— even while passes are outstanding — growing the in-flight set by one, and
every outstanding pass, old or new, can still publish at any time: there is
no single-in-flight guard and no supersede mechanism. -/
theorem frame_always_spawns (s : HitPassSystem) (pid : Nat) (hin : pid ∈ s.inFlight) :
    SysStep s ⟨s.nextId + 1, s.inFlight ++ [s.nextId], s.published⟩
    ∧ (s.inFlight ++ [s.nextId]).length = s.inFlight.length + 1
    ∧ SysStep s ⟨s.nextId, s.inFlight.erase pid, some pid⟩ :=
  ⟨SysStep.frameTick s, by simp, SysStep.passPublish s pid hin⟩

/-- Witness for `frame_always_spawns` at a concrete state with pass 0
outstanding. -/
theorem frame_always_spawns_witness :
    SysStep ⟨1, [0], none⟩ ⟨2, [0, 1], none⟩
    ∧ ([0, 1] : List Nat).length = ([0] : List Nat).length + 1
    ∧ SysStep ⟨1, [0], none⟩ ⟨1, [], some 0⟩ :=
  frame_always_spawns ⟨1, [0], none⟩ 0 (by decide)

end Azimuth
